import Mathlib

/-!
# Verification of `correlate_files_per_issue.py`

A shallow embedding of the aggregation and graph-construction core of the
git-to-jira-links repository (`src/correlate_files_per_issue.py`), together
with theorems settling the specification claims about it.

Modelling conventions:
* Python dicts (insertion-ordered, unique keys) are association lists
  `List (κ × ν)`; `dictSet` updates in place or appends, `dictGet` reads.
* Python `sorted` (a stable sort) is `sortLt`, a left-fold insertion sort that
  places each element after all previously inserted elements that do not
  compare strictly greater; this is stable and sorts by the same strict
  comparison Python uses.
* Python strings are Lean `String`s; Python string comparison is code-point
  lexicographic, as is Lean's `String.lt`.
* Exceptions (`ValueError` from unpacking, `KeyError` from dict lookups) are
  modelled with `Option`: `none` is an uncaught exception.
-/

namespace GitJira

/-- Python dict assignment `d[k] = v` on an insertion-ordered association
list: update in place when the key is present, append otherwise. -/
def dictSet {κ ν : Type} [DecidableEq κ] (d : List (κ × ν)) (k : κ) (v : ν) :
    List (κ × ν) :=
  match d with
  | [] => [(k, v)]
  | (k', v') :: rest =>
    if k' = k then (k, v) :: rest else (k', v') :: dictSet rest k v

/-- Python dict read `d[k]`: the value at the unique occurrence of `k`. -/
def dictGet {κ ν : Type} [DecidableEq κ] (d : List (κ × ν)) (k : κ) : Option ν :=
  match d with
  | [] => none
  | (k', v) :: rest => if k' = k then some v else dictGet rest k

/-- Python `k in d` for a dict modelled as an association list. -/
def dictMem {κ ν : Type} [DecidableEq κ] (d : List (κ × ν)) (k : κ) : Bool :=
  (dictGet d k).isSome

/-- Insert `x` into `l`, placing it before the first element strictly greater
than it (`lt x y = true`); elements not strictly greater are passed over, so
repeated insertion from the left is a stable sort. -/
def insertLt {α : Type} (lt : α → α → Bool) (x : α) : List α → List α
  | [] => [x]
  | y :: ys => if lt x y then x :: y :: ys else y :: insertLt lt x ys

/-- Stable sort by the strict comparison `lt`: models Python `sorted`. -/
def sortLt {α : Type} (lt : α → α → Bool) (l : List α) : List α :=
  l.foldl (fun acc x => insertLt lt x acc) []

/-- Strict lexicographic comparison of natural-number sequences: models
Python's comparison of `array.array` / list values. -/
def lexLtNat : List Nat → List Nat → Bool
  | [], [] => false
  | [], _ :: _ => true
  | _ :: _, [] => false
  | a :: as, b :: bs => if a < b then true else if b < a then false else lexLtNat as bs

/-- Strict lexicographic comparison of character sequences by code point:
models Python string comparison.  (Defined structurally so that the kernel
can evaluate it; Mathlib's `<` on `String` is an iterator-based definition
that the kernel cannot reduce, but `strLtB_iff` below proves the two agree.) -/
def charListLt : List Char → List Char → Bool
  | [], [] => false
  | [], _ :: _ => true
  | _ :: _, [] => false
  | a :: as, b :: bs =>
    if a < b then true else if b < a then false else charListLt as bs

/-- Python `<` on strings, as an executable Bool. -/
def strLtB (a b : String) : Bool :=
  charListLt a.toList b.toList

/-- Split at the first occurrence of `sep` (a nonempty character sequence):
`some (pre, post)` with `s = pre ++ sep ++ post` and `pre` shortest, or `none`
when `sep` does not occur.  Models one step of Python `str.split(sep)`. -/
def findSplit (sep : List Char) : List Char → Option (List Char × List Char)
  | [] => none
  | c :: cs =>
    if sep.isPrefixOf (c :: cs) then some ([], (c :: cs).drop sep.length)
    else
      match findSplit sep cs with
      | some (pre, post) => some (c :: pre, post)
      | none => none

/-- Python `s.split(sep, maxsplit)`: at most `n` splits, scanning left to
right. -/
def pySplitMax (sep : List Char) : Nat → List Char → List (List Char)
  | 0, s => [s]
  | Nat.succ n, s =>
    match findSplit sep s with
    | none => [s]
    | some (pre, post) => pre :: pySplitMax sep n post

/-- String-level `s.split(sep, maxsplit)`. -/
def pySplitStrMax (sep : String) (n : Nat) (s : String) : List String :=
  (pySplitMax sep.toList n s.toList).map String.mk

/-- String-level unlimited `s.split(sep)`: a string of length `ℓ` admits at
most `ℓ` splits on a nonempty separator, so `ℓ` as the bound is exact. -/
def pySplitStr (sep : String) (s : String) : List String :=
  pySplitStrMax sep s.toList.length s

/-- The value of a nonempty run of decimal digits, `none` otherwise. -/
def digitsVal (l : List Char) : Option Nat :=
  if l ≠ [] ∧ l.all Char.isDigit then
    some (l.foldl (fun n c => n * 10 + (c.toNat - '0'.toNat)) 0)
  else none

/-- Models Python `int(s)`: an optional sign followed by decimal digits.
(Python additionally strips surrounding whitespace and permits underscores
between digits; the tasklines this repository writes contain bare digit runs,
for which the two parsers agree, and the claims depend only on which size
fields fail to parse.) -/
def pyInt (s : String) : Option Int :=
  match s.toList with
  | '-' :: rest => (digitsVal rest).map (fun n => -(n : Int))
  | '+' :: rest => (digitsVal rest).map (fun n => (n : Int))
  | l => (digitsVal l).map (fun n => (n : Int))

/-- The structured result of parsing one taskline: the tuple
`(issue_id, isodate, files, sizes)` returned by `process_taskline`. -/
structure ChangeRecord where
  issue_id : String
  isodate : String
  files : List String
  sizes : List Int
deriving Repr, DecidableEq

/-- Embedding of `process_taskline` (src/correlate_files_per_issue.py:65-88).
`none` models an uncaught exception (too few fields for the 4-way unpack, or
no `": "` separator for the 2-way unpack).  The `shorttitle` computation of
the source is dead code with respect to the returned tuple and raises no
exception, so it is omitted. -/
def process_taskline (taskline : String) : Option ChangeRecord :=
  match pySplitStrMax " " 3 taskline with
  | [_commit_id, issue_id, isodate, rest] =>
    match pySplitStrMax ": " 1 rest with
    | [files_string, _title] =>
      if files_string = ":" then
        some ⟨issue_id, isodate, [], []⟩
      else
        let files0 := (pySplitStr ":" files_string).drop 1
        let parsed := files0.map (fun f => pyInt ((pySplitStr "," f).getLastD ""))
        let sizes :=
          if parsed.all Option.isSome then parsed.map (fun o => o.getD 0)
          else files0.map (fun _ => (0 : Int))
        let files := files0.map (fun f => String.intercalate "," ((pySplitStr "," f).dropLast))
        some ⟨issue_id, isodate, files, sizes⟩
    | _ => none
  | _ => none

/-- One step of the accumulation loop shared by `sum_filesizes_per_issue` and
`aggregate_files_per_issue`: update `issuedatelatest` with a record's date
(keep the strictly larger one, first writer wins ties). -/
def updLatest (latest : List (String × String)) (issue date : String) :
    List (String × String) :=
  if dictMem latest issue = false ∨ strLtB ((dictGet latest issue).getD "") date then
    dictSet latest issue date
  else latest

/-- The second loop shared by `sum_filesizes_per_issue` and
`aggregate_files_per_issue`: re-key each accumulated entry by the composite
string `latest_date + ":" + issue_id`.  The `issuedatelatest[key]` read always
succeeds (each key of `mapped` was inserted into `issuedatelatest` by the same
iteration), so it is modelled with a default. -/
def withDate {ν : Type} (latest : List (String × String))
    (mapped : List (String × ν)) : List (String × ν) :=
  mapped.foldl
    (fun w kv => dictSet w ((dictGet latest kv.1).getD "" ++ ":" ++ kv.1) kv.2) []

/-- Python comparison of `(str, int)` pairs, as used by
`sorted(withdate.items())`. -/
def pairLtStrInt (a b : String × Int) : Bool :=
  if strLtB a.1 b.1 then true else if strLtB b.1 a.1 then false else decide (a.2 < b.2)

/-- The `mapped` half of one iteration of the first loop of
`sum_filesizes_per_issue` (src/correlate_files_per_issue.py:106-109): insert
0 for a fresh issue, then add the record's sizes to the running total. -/
def sumMapStep (mapped : List (String × Int)) (c : ChangeRecord) :
    List (String × Int) :=
  let m := if dictMem mapped c.issue_id then mapped else dictSet mapped c.issue_id 0
  dictSet m c.issue_id ((dictGet m c.issue_id).getD 0 + c.sizes.foldl (· + ·) 0)

/-- One iteration of the first loop of `sum_filesizes_per_issue`
(src/correlate_files_per_issue.py:99-109): update the latest date and add the
record's sizes to the issue's running total. -/
def sumStep (st : List (String × String) × List (String × Int))
    (c : ChangeRecord) : List (String × String) × List (String × Int) :=
  (updLatest st.1 c.issue_id c.isodate, sumMapStep st.2 c)

/-- Embedding of `sum_filesizes_per_issue`
(src/correlate_files_per_issue.py:91-115). -/
def sum_filesizes_per_issue (changes : List ChangeRecord) : List (String × Int) :=
  let st := changes.foldl sumStep ([], [])
  sortLt pairLtStrInt (withDate st.1 st.2)

/-- Python set add for a set modelled as a duplicate-free list in insertion
order (the model is only ever read through `sorted`, which depends on
membership alone, so the iteration-order freedom of a real Python set is
irrelevant). -/
def setAdd (s : List String) (f : String) : List String :=
  if f ∈ s then s else s ++ [f]

/-- Python string comparison as a Bool, for `sorted` over strings. -/
def strLt (a b : String) : Bool :=
  strLtB a b

/-- The `mapped` half of one iteration of the first loop of
`aggregate_files_per_issue` (src/correlate_files_per_issue.py:135-138):
insert an empty set for a fresh issue, then add each of the record's files. -/
def aggMapStep (mapped : List (String × List String)) (c : ChangeRecord) :
    List (String × List String) :=
  let m := if dictMem mapped c.issue_id then mapped else dictSet mapped c.issue_id []
  c.files.foldl
    (fun m f => dictSet m c.issue_id (setAdd ((dictGet m c.issue_id).getD []) f)) m

/-- One iteration of the first loop of `aggregate_files_per_issue`
(src/correlate_files_per_issue.py:128-138): update the latest date and add
each of the record's files to the issue's set. -/
def aggStep (st : List (String × String) × List (String × List String))
    (c : ChangeRecord) : List (String × String) × List (String × List String) :=
  (updLatest st.1 c.issue_id c.isodate, aggMapStep st.2 c)

/-- The `issuedatelatest` dict produced by either first loop. -/
def latFold (changes : List ChangeRecord) : List (String × String) :=
  changes.foldl (fun lat c => updLatest lat c.issue_id c.isodate) []

/-- Embedding of `aggregate_files_per_issue`
(src/correlate_files_per_issue.py:118-148).  Returns the `withdate` dict
(insertion-ordered association list). -/
def aggregate_files_per_issue (changes : List ChangeRecord) :
    List (String × List String) :=
  let st := changes.foldl aggStep ([], [])
  let mapped := st.2.map (fun kv => (kv.1, sortLt strLt kv.2))
  withDate st.1 mapped

/-- The mutable state of `correlate_files_with_each_other`'s accumulation
loop: the `edges` and `weights` dicts (node id → parallel arrays) and the
filename interning pair (`known_files_to_index`, `known_files`). -/
structure GraphState where
  edges : List (Nat × List Nat)
  weights : List (Nat × List Nat)
  known_files_to_index : List (String × Nat)
  known_files : List String
deriving Repr, DecidableEq

/-- The initial graph state: all four containers empty. -/
def initGraphState : GraphState := ⟨[], [], [], []⟩

/-- Filename interning (src/correlate_files_per_issue.py:190-192 and 205-207):
a filename not yet known is appended to `known_files` and mapped to the next
dense id. -/
def register (st : GraphState) (f : String) : GraphState :=
  if dictMem st.known_files_to_index f then st
  else
    { st with
      known_files_to_index := dictSet st.known_files_to_index f st.known_files.length
      known_files := st.known_files ++ [f] }

/-- `known_files_to_index[f]` after `register`: always present, modelled with
a default. -/
def indexOf (st : GraphState) (f : String) : Nat :=
  (dictGet st.known_files_to_index f).getD 0

/-- `l[pos] += 1` on a Python list: `pos` is always in range at the one call
site (it is a position into the node's weight array recorded before the loop,
which only grows). -/
def listIncr (l : List Nat) (pos : Nat) : List Nat :=
  l.set pos (l.getD pos 0 + 1)

/-- One iteration of the inner `for g in files` loop
(src/correlate_files_per_issue.py:204-214), threading the graph state and the
transient `edgecounter`; `edgeindex` is fixed for the whole loop.  `none`
models the `KeyError` raised when `gidx` is counted but absent from
`edgeindex` (possible only when `files` repeats a name). -/
def applyG (fidx : Nat) (index : List (Nat × Nat))
    (acc : GraphState × List (Nat × Nat)) (g : String) :
    Option (GraphState × List (Nat × Nat)) :=
  let st := register acc.1 g
  let counter := acc.2
  let gidx := indexOf st g
  let counter' := dictSet counter gidx ((dictGet counter gidx).getD 0 + 1)
  if dictMem counter gidx then
    match dictGet index gidx with
    | none => none
    | some pos =>
      some ({ st with
              weights := dictSet st.weights fidx
                (listIncr ((dictGet st.weights fidx).getD []) pos) },
            counter')
  else
    some ({ st with
            edges := dictSet st.edges fidx (((dictGet st.edges fidx).getD []) ++ [gidx])
            weights := dictSet st.weights fidx (((dictGet st.weights fidx).getD []) ++ [1]) },
          counter')

/-- Array creation for a node seen for the first time as `f`
(src/correlate_files_per_issue.py:194-196). -/
def initNode (st : GraphState) (fidx : Nat) : GraphState :=
  if dictMem st.edges fidx then st
  else { st with edges := dictSet st.edges fidx [], weights := dictSet st.weights fidx [] }

/-- One iteration of the outer `for f in files` loop
(src/correlate_files_per_issue.py:189-214): register `f`, create its empty
arrays if new, snapshot `edgecounter`/`edgeindex` from the current arrays,
then run the inner loop over the same `files`. -/
def processF (files : List String) (st : GraphState) (f : String) :
    Option GraphState :=
  let st := register st f
  let fidx := indexOf st f
  let st := initNode st fidx
  let ev := (dictGet st.edges fidx).getD []
  let wv := (dictGet st.weights fidx).getD []
  let counter := (ev.zip wv).foldl (fun c p => dictSet c p.1 p.2) []
  let index := ev.enum.foldl (fun c p => dictSet c p.2 p.1) []
  (files.foldlM (applyG fidx index) (st, counter)).map Prod.fst

/-- One iteration of the issue loop (src/correlate_files_per_issue.py:183-214):
an issue with more than 300 files is skipped outright. -/
def issueStep (ost : Option GraphState) (files : List String) : Option GraphState :=
  ost.bind fun st =>
    if files.length > 300 then some st
    else files.foldlM (fun s f => processF files s f) st

/-- The whole accumulation phase of `correlate_files_with_each_other`:
fold the issue loop over `aggregated.values()` in order. -/
def buildGraph (aggregated : List (String × List String)) : Option GraphState :=
  (aggregated.map Prod.snd).foldl issueStep (some initGraphState)

/-- One iteration of the finalization loop
(src/correlate_files_per_issue.py:215-219): replace `edges[k]` by its sorted
version, then sort `weights[k]` *using each weight value as a key into the
(partially updated) `edges` dict*, exactly as the source does.  A weight value
that is not a node id with an `edges` entry raises `KeyError` (`none`). -/
def finalizeStep (p : List (Nat × List Nat) × List (Nat × List Nat)) (k : Nat) :
    Option (List (Nat × List Nat) × List (Nat × List Nat)) :=
  let v := (dictGet p.1 k).getD []
  let w := (dictGet p.2 k).getD []
  let edges := dictSet p.1 k (sortLt (fun a b : Nat => a < b) v)
  match w.mapM (fun x => dictGet edges x) with
  | none => none
  | some keys =>
    let w' := (sortLt (fun a b : Nat × List Nat => lexLtNat a.2 b.2) (w.zip keys)).map Prod.fst
    some (edges, dictSet p.2 k w')

/-- Comparison of `(id, array)` dict items, as Python's pair comparison used
by `sorted(edges.items())`. -/
def itemLt (a b : Nat × List Nat) : Bool :=
  if a.1 < b.1 then true else if b.1 < a.1 then false else lexLtNat a.2 b.2

/-- Embedding of `correlate_files_with_each_other`
(src/correlate_files_per_issue.py:164-220): accumulation, finalization over
the keys of `edges` in insertion order, and the sorted item lists of the
return statement.  `none` models an uncaught exception. -/
def correlate_files_with_each_other (aggregated : List (String × List String)) :
    Option (List String × List (Nat × List Nat) × List (Nat × List Nat)) :=
  (buildGraph aggregated).bind fun st =>
    ((st.edges.map Prod.fst).foldlM finalizeStep (st.edges, st.weights)).map
      fun p => (st.known_files, sortLt itemLt p.1, sortLt itemLt p.2)

/-! ## Specification-side definitions

These definitions follow the spec's words (union of file sets, lexicographic
maximum date, retained issues, first-seen order, co-occurrence counts) and are
used only on the specification side of refinement statements; the embedding
above is the code side. -/

/-- Spec side: the contributing records of an issue, in input order. -/
def recordsOf (changes : List ChangeRecord) (issue : String) : List ChangeRecord :=
  changes.filter (fun c => c.issue_id == issue)

/-- Spec side: the lexicographic maximum of the dates of an issue's
contributing records (the empty string, the lexicographic bottom, if there is
none). -/
def latestDate (changes : List ChangeRecord) (issue : String) : String :=
  (recordsOf changes issue).foldl
    (fun acc c => if strLtB acc c.isodate then c.isodate else acc) ""

/-- Spec side: the composite output key `latest_date + ":" + issue_id`. -/
def compositeKey (changes : List ChangeRecord) (issue : String) : String :=
  latestDate changes issue ++ ":" ++ issue

/-- Spec side: the sum of every size value across every contributing record
of an issue (no deduplication by filename). -/
def issueSum (changes : List ChangeRecord) (issue : String) : Int :=
  (((recordsOf changes issue).map (fun c => c.sizes.foldl (· + ·) 0)).foldl (· + ·) 0)

/-- Spec side: the concatenation of the file lists of an issue's contributing
records; the aggregated file set must equal it up to membership. -/
def issueFiles (changes : List ChangeRecord) (issue : String) : List String :=
  ((recordsOf changes issue).map ChangeRecord.files).flatten

/-- Spec side: the file sets of the retained issues (cardinality at most the
threshold 300), in input order. -/
def retainedFileSets (aggregated : List (String × List String)) : List (List String) :=
  (aggregated.map Prod.snd).filter (fun fs => decide (fs.length ≤ 300))

/-- Spec side: the number of retained issues whose file set contains both `f`
and `g` — the co-occurrence count the graph's weights must record. -/
def coCount (aggregated : List (String × List String)) (f g : String) : Nat :=
  ((retainedFileSets aggregated).filter (fun fs => decide (f ∈ fs) && decide (g ∈ fs))).length

/-- Spec side: append a filename unless it is already present — one step of
first-seen-order dense interning. -/
def addFile (acc : List String) (f : String) : List String :=
  if f ∈ acc then acc else acc ++ [f]

/-- Spec side: the distinct filenames of the retained issues in first-seen
order — the node list the `FileIndex` must produce. -/
def firstSeenFiles (aggregated : List (String × List String)) : List String :=
  ((retainedFileSets aggregated).flatten).foldl addFile []

/-- The index dict that assigns position `i + k` to the `k`-th element of a
list. -/
def enumIndexFrom (i : Nat) : List String → List (String × Nat)
  | [] => []
  | a :: l => (a, i) :: enumIndexFrom (i + 1) l

/-- The index dict of a node list: each filename mapped to its position —
the shape `known_files_to_index` must have. -/
def enumIndex (l : List String) : List (String × Nat) :=
  enumIndexFrom 0 l

/-- The two interning fields of a `GraphState`. -/
def knownPair (st : GraphState) : List (String × Nat) × List String :=
  (st.known_files_to_index, st.known_files)

/-- The interning step of `register`, on the interning fields alone. -/
def internPair (p : List (String × Nat) × List String) (f : String) :
    List (String × Nat) × List String :=
  if (dictGet p.1 f).isSome then p
  else (dictSet p.1 f p.2.length, p.2 ++ [f])

/-- The aggregated input of Scenario A (the source doctest of
`correlate_files_with_each_other`). -/
def scenarioA : List (String × List String) :=
  [("TEST-1111", ["A", "B", "C"]), ("TEST-1112", ["A", "D"])]

/-- The raw records of Scenario C (the source doctests of
`sum_filesizes_per_issue` and `aggregate_files_per_issue`). -/
def scenarioC : List ChangeRecord :=
  [⟨"FOO-1111", "2018-03-12", ["A", "B"], [1, 15]⟩,
   ⟨"FOO-1111", "2018-03-10", ["A", "C"], [2, 5]⟩,
   ⟨"FOO-1112", "2018-03-11", ["A", "D"], [2, 8]⟩]

/-- An aggregated input on which graph construction completes but the
finalization re-sort desynchronizes weights from neighbors: file ids are
A↦0, C↦1, B↦2, and node 1 (file C) ends with neighbors `[0,1,2]` but weights
`[1,1,2]`, although C co-occurs with itself in two issues and with B in one. -/
def misalignedInput : List (String × List String) :=
  [("I1", ["A", "C"]), ("I2", ["B", "C"]), ("I3", ["B"])]

/-! ## Generic lemmas about the dict and sort models -/

theorem dictGet_dictSet_self {κ ν : Type} [DecidableEq κ]
    (d : List (κ × ν)) (k : κ) (v : ν) :
    dictGet (dictSet d k v) k = some v := by
  induction d with
  | nil => simp [dictSet, dictGet]
  | cons p rest ih =>
    obtain ⟨k', v'⟩ := p
    by_cases h : k' = k
    · subst h; simp [dictSet, dictGet]
    · simp [dictSet, dictGet, h, ih]

theorem dictGet_dictSet_ne {κ ν : Type} [DecidableEq κ]
    (d : List (κ × ν)) (k k' : κ) (v : ν) (h : k' ≠ k) :
    dictGet (dictSet d k v) k' = dictGet d k' := by
  induction d with
  | nil => simp [dictSet, dictGet, Ne.symm h]
  | cons p rest ih =>
    obtain ⟨k₀, v₀⟩ := p
    by_cases hk : k₀ = k
    · subst hk
      simp [dictSet, dictGet, Ne.symm h]
    · by_cases hk' : k₀ = k'
      · subst hk'; simp [dictSet, dictGet, hk]
      · simp [dictSet, dictGet, hk, hk', ih]

theorem dictSet_fresh {κ ν : Type} [DecidableEq κ]
    (d : List (κ × ν)) (k : κ) (v : ν) (h : dictGet d k = none) :
    dictSet d k v = d ++ [(k, v)] := by
  induction d with
  | nil => simp [dictSet]
  | cons p rest ih =>
    obtain ⟨k₀, v₀⟩ := p
    simp only [dictGet] at h
    by_cases hk : k₀ = k
    · simp [hk] at h
    · simp only [hk, if_false] at h
      simp [dictSet, hk, ih h]

/-- The keys of an association list, for the no-duplicate-keys invariant. -/
def keysNodup {κ ν : Type} (d : List (κ × ν)) : Prop :=
  (d.map Prod.fst).Nodup

theorem mem_dictSet_key {κ ν : Type} [DecidableEq κ]
    {d : List (κ × ν)} {k : κ} {v : ν} {q : κ × ν} (h : q ∈ dictSet d k v) :
    q.1 = k ∨ q ∈ d := by
  induction d with
  | nil =>
    simp [dictSet] at h
    simp [h]
  | cons p rest ih =>
    obtain ⟨k₀, v₀⟩ := p
    by_cases hk : k₀ = k
    · subst hk
      simp only [dictSet, if_pos rfl] at h
      rcases List.mem_cons.mp h with hq | hq
      · exact Or.inl (by simp [hq])
      · exact Or.inr (List.mem_cons_of_mem _ hq)
    · simp only [dictSet, if_neg hk] at h
      rcases List.mem_cons.mp h with hq | hq
      · exact Or.inr (hq ▸ List.mem_cons_self _ _)
      · rcases ih hq with h1 | h1
        · exact Or.inl h1
        · exact Or.inr (List.mem_cons_of_mem _ h1)

theorem keysNodup_dictSet {κ ν : Type} [DecidableEq κ]
    (d : List (κ × ν)) (k : κ) (v : ν) (h : keysNodup d) :
    keysNodup (dictSet d k v) := by
  induction d with
  | nil => simp [dictSet, keysNodup]
  | cons p rest ih =>
    obtain ⟨k₀, v₀⟩ := p
    simp only [keysNodup, List.map_cons, List.nodup_cons] at h
    by_cases hk : k₀ = k
    · subst hk
      simp only [dictSet, if_pos rfl]
      simpa [keysNodup] using h
    · have hrest := ih h.2
      simp only [dictSet, if_neg hk]
      simp only [keysNodup, List.map_cons, List.nodup_cons]
      refine ⟨?_, hrest⟩
      intro hmem
      rcases List.mem_map.mp hmem with ⟨q, hq, hfst⟩
      rcases mem_dictSet_key hq with hqk | hqd
      · exact hk (hfst ▸ hqk ▸ rfl)
      · exact h.1 (hfst ▸ List.mem_map_of_mem Prod.fst hqd)

theorem dictGet_of_mem_keysNodup {κ ν : Type} [DecidableEq κ]
    {d : List (κ × ν)} {k : κ} {v : ν} (h : keysNodup d) (hm : (k, v) ∈ d) :
    dictGet d k = some v := by
  induction d with
  | nil => simp at hm
  | cons p rest ih =>
    obtain ⟨k₀, v₀⟩ := p
    simp only [keysNodup, List.map_cons, List.nodup_cons] at h
    rcases List.mem_cons.mp hm with hp | hp
    · cases hp; simp [dictGet]
    · have hk : k₀ ≠ k := by
        intro hkk
        exact h.1 (hkk ▸ List.mem_map_of_mem Prod.fst hp)
      simp [dictGet, hk, ih h.2 hp]

theorem mem_of_dictGet {κ ν : Type} [DecidableEq κ]
    {d : List (κ × ν)} {k : κ} {v : ν} (h : dictGet d k = some v) :
    (k, v) ∈ d := by
  induction d with
  | nil => simp [dictGet] at h
  | cons p rest ih =>
    obtain ⟨k₀, v₀⟩ := p
    by_cases hk : k₀ = k
    · subst hk
      simp only [dictGet, if_pos rfl] at h
      cases h
      exact List.mem_cons_self _ _
    · simp only [dictGet, if_neg hk] at h
      exact List.mem_cons_of_mem _ (ih h)

theorem insertLt_perm {α : Type} (lt : α → α → Bool) (x : α) (l : List α) :
    (insertLt lt x l).Perm (x :: l) := by
  induction l with
  | nil => exact List.Perm.refl _
  | cons y ys ih =>
    by_cases h : lt x y = true
    · simp [insertLt, h]
    · simp only [insertLt, h, if_false]
      exact (ih.cons y).trans (List.Perm.swap x y ys)

theorem mem_insertLt {α : Type} (lt : α → α → Bool) (x z : α) (l : List α) :
    z ∈ insertLt lt x l ↔ z = x ∨ z ∈ l := by
  rw [(insertLt_perm lt x l).mem_iff]
  simp

theorem sortLt_perm_aux {α : Type} (lt : α → α → Bool) (l acc : List α) :
    (l.foldl (fun acc x => insertLt lt x acc) acc).Perm (acc ++ l) := by
  induction l generalizing acc with
  | nil => simp
  | cons x xs ih =>
    simp only [List.foldl_cons]
    refine (ih (insertLt lt x acc)).trans ?_
    refine (List.Perm.append_right xs (insertLt_perm lt x acc)).trans ?_
    exact List.perm_middle.symm

theorem sortLt_perm {α : Type} (lt : α → α → Bool) (l : List α) :
    (sortLt lt l).Perm l := by
  simpa using sortLt_perm_aux lt l []

theorem mem_sortLt {α : Type} (lt : α → α → Bool) (z : α) (l : List α) :
    z ∈ sortLt lt l ↔ z ∈ l :=
  (sortLt_perm lt l).mem_iff

theorem insertLt_pairwise {α : Type} (lt : α → α → Bool)
    (hasymm : ∀ a b, lt a b = true → lt b a = false)
    (hco : ∀ a b c, lt a c = true → lt a b = true ∨ lt b c = true)
    (x : α) {l : List α}
    (hl : l.Pairwise (fun a b => lt b a = false)) :
    (insertLt lt x l).Pairwise (fun a b => lt b a = false) := by
  induction l with
  | nil => simp [insertLt]
  | cons y ys ih =>
    rcases List.pairwise_cons.mp hl with ⟨hy, hys⟩
    by_cases h : lt x y = true
    · simp only [insertLt, h, if_true]
      refine List.pairwise_cons.mpr ⟨?_, hl⟩
      intro z hz
      rcases List.mem_cons.mp hz with rfl | hz
      · exact hasymm x z h
      · cases hzx : lt z x with
        | false => rfl
        | true =>
          rcases hco z y x hzx with h1 | h1
          · rw [hy z hz] at h1; cases h1
          · rw [hasymm x y h] at h1; cases h1
    · simp only [insertLt, h, if_false]
      refine List.pairwise_cons.mpr ⟨?_, ih hys⟩
      intro z hz
      rcases (mem_insertLt lt x z ys).mp hz with rfl | hz
      · exact Bool.not_eq_true _ ▸ Bool.of_not_eq_true h
      · exact hy z hz

theorem sortLt_pairwise_aux {α : Type} (lt : α → α → Bool)
    (hasymm : ∀ a b, lt a b = true → lt b a = false)
    (hco : ∀ a b c, lt a c = true → lt a b = true ∨ lt b c = true)
    (l acc : List α) (hacc : acc.Pairwise (fun a b => lt b a = false)) :
    (l.foldl (fun acc x => insertLt lt x acc) acc).Pairwise
      (fun a b => lt b a = false) := by
  induction l generalizing acc with
  | nil => exact hacc
  | cons x xs ih =>
    exact ih (insertLt lt x acc) (insertLt_pairwise lt hasymm hco x hacc)

theorem sortLt_pairwise {α : Type} (lt : α → α → Bool)
    (hasymm : ∀ a b, lt a b = true → lt b a = false)
    (hco : ∀ a b c, lt a c = true → lt a b = true ∨ lt b c = true)
    (l : List α) :
    (sortLt lt l).Pairwise (fun a b => lt b a = false) :=
  sortLt_pairwise_aux lt hasymm hco l [] (List.Pairwise.nil)

theorem findSplit_single_none {c : Char} {l : List Char} (h : c ∉ l) :
    findSplit [c] l = none := by
  induction l with
  | nil => rfl
  | cons a as ih =>
    have hca : c ≠ a := fun e => h (e ▸ List.mem_cons_self a as)
    have hpre : ([c].isPrefixOf (a :: as)) = false := by
      simp [List.isPrefixOf, hca]
    simp [findSplit, hpre, ih (fun hm => h (List.mem_cons_of_mem a hm))]

theorem pySplitMax_of_none {sep s : List Char} (h : findSplit sep s = none)
    (n : Nat) : pySplitMax sep n s = [s] := by
  cases n <;> simp [pySplitMax, h]

theorem pySplitStr_no_sep {s : String} (h : ':' ∉ s.toList) :
    pySplitStr ":" s = [s] := by
  have hnone : findSplit (":".toList) s.toList = none := findSplit_single_none h
  unfold pySplitStr pySplitStrMax
  rw [pySplitMax_of_none hnone]
  rfl

/-! ## Claim theorems -/

/-- Claim C3: on the aggregated input of Scenario A,
`correlate_files_with_each_other` returns node list `(A,B,C,D)` at ids
`(0,1,2,3)` and exactly the edge and weight rows of the source doctest. -/
theorem C3_scenarioA_graph :
    correlate_files_with_each_other scenarioA =
      some (["A", "B", "C", "D"],
        [(0, [0, 1, 2, 3]), (1, [0, 1, 2]), (2, [0, 1, 2]), (3, [0, 3])],
        [(0, [2, 1, 1, 1]), (1, [1, 1, 1]), (2, [1, 1, 1]), (3, [1, 1])]) := by
  rfl

/-- Claim C1 (code bug): on `misalignedInput` graph construction completes,
but the finalized output pairs node 1's sorted neighbors `[0,1,2]` with
weights `[1,1,2]`, while file C (id 1) co-occurs with itself in 2 retained
issues and with B (id 2) in 1 — so `weights[k]` does not describe
`neighbors[k]` at k = 1 and k = 2.  The weight re-sort at
src/correlate_files_per_issue.py:219 keys on weight values instead of the
neighbor permutation. -/
theorem C1_alignment_failure :
    correlate_files_with_each_other misalignedInput =
      some (["A", "C", "B"],
        [(0, [0, 1]), (1, [0, 1, 2]), (2, [1, 2])],
        [(0, [1, 1]), (1, [1, 1, 2]), (2, [1, 2])]) ∧
    coCount misalignedInput "C" "C" = 2 ∧
    coCount misalignedInput "C" "B" = 1 := by
  exact ⟨rfl, rfl, rfl⟩

/-- Claim C2 (code bug): in the graph returned for `misalignedInput`, node 1
(file C) has neighbor row `[0,1,2]` and weight row `[1,1,2]`: the weight
paired with the self-edge neighbor 1 is 1 although C appears in 2 retained
issues, and the weight paired with neighbor 2 (file B) is 2 although C and B
share only 1 issue. -/
theorem C2_edge_weight_failure :
    (correlate_files_with_each_other misalignedInput).map
        (fun r => dictGet r.2.1 1) = some (some [0, 1, 2]) ∧
    (correlate_files_with_each_other misalignedInput).map
        (fun r => dictGet r.2.2 1) = some (some [1, 1, 2]) ∧
    coCount misalignedInput "C" "C" = 2 ∧
    coCount misalignedInput "C" "B" = 1 := by
  exact ⟨rfl, rfl, rfl, rfl⟩

/-- Claim C10 (code bug): on the minimal well-formed aggregated input
`{"I1": ("A",)}` the accumulation phase succeeds, but finalization raises
`KeyError`: it looks up the weight value 1 as a node id in the `edges` dict,
whose only key is 0 (src/correlate_files_per_issue.py:219). -/
theorem C10_finalize_keyerror :
    buildGraph [("I1", ["A"])] =
      some ⟨[(0, [0])], [(0, [1])], [("A", 0)], ["A"]⟩ ∧
    correlate_files_with_each_other [("I1", ["A"])] = none := by
  exact ⟨rfl, rfl⟩

theorem issueStep_over_threshold (o : Option GraphState) (files : List String)
    (h : files.length > 300) : issueStep o files = o := by
  cases o with
  | none => rfl
  | some st => simp [issueStep, h]

theorem foldl_issueStep_filter (values : List (List String)) (o : Option GraphState) :
    values.foldl issueStep o =
      (values.filter (fun fs => decide (fs.length ≤ 300))).foldl issueStep o := by
  induction values generalizing o with
  | nil => rfl
  | cons fs rest ih =>
    by_cases h : fs.length ≤ 300
    · simp only [List.foldl_cons, List.filter_cons]
      rw [if_pos (by simpa using h)]
      simp only [List.foldl_cons]
      exact ih (issueStep o fs)
    · simp only [List.foldl_cons, List.filter_cons]
      rw [if_neg (by simpa using h)]
      rw [issueStep_over_threshold o fs (by omega)]
      exact ih o

theorem map_snd_filter_length (aggregated : List (String × List String)) :
    ((aggregated.filter (fun kv => decide (kv.2.length ≤ 300))).map Prod.snd)
      = (aggregated.map Prod.snd).filter (fun fs => decide (fs.length ≤ 300)) := by
  induction aggregated with
  | nil => rfl
  | cons kv rest ih =>
    by_cases h : kv.2.length ≤ 300 <;>
      simp [List.filter_cons, h, ih]

/-- Claim C4: issues whose file set exceeds the threshold 300 contribute
nothing: the whole graph construction returns the same result as on the input
with every over-threshold issue removed (hence no edges and no file
registrations can be attributed to them). -/
theorem C4_threshold_skip (aggregated : List (String × List String)) :
    correlate_files_with_each_other aggregated =
      correlate_files_with_each_other
        (aggregated.filter (fun kv => decide (kv.2.length ≤ 300))) := by
  unfold correlate_files_with_each_other buildGraph
  rw [map_snd_filter_length, ← foldl_issueStep_filter]

/-- Claim C6: a taskline whose file manifest contains a size component that
fails integer parsing is not rejected: `process_taskline` returns the file
list computed as for a well-formed manifest, with every size defaulted to 0
(one zero per file), and the issue and date fields parsed as usual.  (The
logged diagnostic is outside the embedding.) -/
theorem C6_malformed_size_recovery (line commit issue date rest fs title : String)
    (h1 : pySplitStrMax " " 3 line = [commit, issue, date, rest])
    (h2 : pySplitStrMax ": " 1 rest = [fs, title])
    (h3 : fs ≠ ":")
    (h4 : ∃ f ∈ (pySplitStr ":" fs).drop 1,
        pyInt ((pySplitStr "," f).getLastD "") = none) :
    process_taskline line = some ⟨issue, date,
      ((pySplitStr ":" fs).drop 1).map
        (fun f => String.intercalate "," ((pySplitStr "," f).dropLast)),
      List.replicate ((pySplitStr ":" fs).drop 1).length 0⟩ := by
  unfold process_taskline
  rw [h1]
  dsimp only
  rw [h2]
  dsimp only
  rw [if_neg h3]
  have hall : (((pySplitStr ":" fs).drop 1).map
      (fun f => pyInt ((pySplitStr "," f).getLastD ""))).all Option.isSome = false := by
    rcases h4 with ⟨f, hf, hnone⟩
    rw [← Bool.not_eq_true, List.all_eq_true]
    intro hforall
    have := hforall (pyInt ((pySplitStr "," f).getLastD "")) (List.mem_map_of_mem _ hf)
    rw [hnone] at this
    simp at this
  simp only [hall, Bool.false_eq_true, if_false]
  congr 1
  congr 1
  simp [List.map_const']

/-- Witness for C6 at a line whose manifest hides a `:` inside a filename:
the size component `B` fails parsing and all sizes collapse to 0. -/
theorem C6_malformed_size_recovery_witness :
    process_taskline "c1 FOO-1 2018-03-12 :A,2:B:C,x: t" =
      some ⟨"FOO-1", "2018-03-12", ["A", "", "C"], [0, 0, 0]⟩ := by
  exact C6_malformed_size_recovery "c1 FOO-1 2018-03-12 :A,2:B:C,x: t"
    "c1" "FOO-1" "2018-03-12" ":A,2:B:C,x: t" ":A,2:B:C,x" "t"
    rfl rfl (by decide) ⟨"B", by decide, rfl⟩

/-- Counterexample to claim C7: a line of the second shape (no file manifest,
fourth field `notitle` not beginning with `:`) is not accepted —
`rest.split(": ", 1)` yields a single element and the two-way unpack raises
`ValueError`. -/
theorem C7_no_manifest_rejected :
    process_taskline "c1 FOO-1 2018-01-01 notitle" = none := by
  rfl

/-- Claim C7 as amended: a line without a file manifest is accepted only when
its free text contains the two-character separator `": "`; when the text
before the first `": "` contains no colon at all, the parser returns a record
with empty file and size lists. -/
theorem C7_no_manifest_amended (line commit issue date rest fs title : String)
    (h1 : pySplitStrMax " " 3 line = [commit, issue, date, rest])
    (h2 : pySplitStrMax ": " 1 rest = [fs, title])
    (h3 : ':' ∉ fs.toList) :
    process_taskline line = some ⟨issue, date, [], []⟩ := by
  have hne : fs ≠ ":" := by
    rintro rfl
    exact h3 (by decide)
  unfold process_taskline
  rw [h1]
  dsimp only
  rw [h2]
  dsimp only
  rw [if_neg hne, pySplitStr_no_sep h3]
  rfl

/-- Witness for the amended C7: a manifest-free line whose title happens to
contain `": "` parses to empty file and size lists. -/
theorem C7_no_manifest_amended_witness :
    process_taskline "c1 FOO-1 2018-01-01 Fix: the bug" =
      some ⟨"FOO-1", "2018-01-01", [], []⟩ := by
  exact C7_no_manifest_amended "c1 FOO-1 2018-01-01 Fix: the bug"
    "c1" "FOO-1" "2018-01-01" "Fix: the bug" "Fix" "the bug"
    rfl rfl (by decide)

theorem dictGet_enumIndexFrom_isSome (l : List String) :
    ∀ (i : Nat) (f : String),
      (dictGet (enumIndexFrom i l) f).isSome = true ↔ f ∈ l := by
  induction l with
  | nil => intro i f; simp [enumIndexFrom, dictGet]
  | cons a as ih =>
    intro i f
    by_cases h : a = f
    · subst h; simp [enumIndexFrom, dictGet]
    · have hfa : f ≠ a := fun e => h e.symm
      simp [enumIndexFrom, dictGet, h, ih (i + 1) f, hfa]

theorem dictGet_enumIndexFrom_none {l : List String} {f : String}
    (h : f ∉ l) (i : Nat) : dictGet (enumIndexFrom i l) f = none := by
  rw [← Option.not_isSome_iff_eq_none]
  simp [dictGet_enumIndexFrom_isSome, h]

theorem enumIndexFrom_append (l : List String) :
    ∀ (i : Nat) (f : String),
      enumIndexFrom i (l ++ [f]) = enumIndexFrom i l ++ [(f, i + l.length)] := by
  induction l with
  | nil => intro i f; simp [enumIndexFrom]
  | cons a as ih =>
    intro i f
    have hn : i + 1 + as.length = i + (as.length + 1) := by omega
    simp [enumIndexFrom, ih (i + 1) f, hn]

theorem internPair_enumIndex (l : List String) (f : String) :
    internPair (enumIndex l, l) f = (enumIndex (addFile l f), addFile l f) := by
  unfold internPair addFile enumIndex
  by_cases h : f ∈ l
  · simp [h, (dictGet_enumIndexFrom_isSome l 0 f).mpr h]
  · have hnone := dictGet_enumIndexFrom_none h 0
    rw [if_neg (by simp [hnone]), if_neg h]
    rw [dictSet_fresh _ _ _ hnone, enumIndexFrom_append]
    simp

theorem foldl_internPair_enumIndex (files : List String) :
    ∀ l, files.foldl internPair (enumIndex l, l) =
      (enumIndex (files.foldl addFile l), files.foldl addFile l) := by
  induction files with
  | nil => intro l; rfl
  | cons f fs ih =>
    intro l
    simp only [List.foldl_cons, internPair_enumIndex]
    exact ih (addFile l f)

theorem mem_addFile_self (l : List String) (f : String) : f ∈ addFile l f := by
  unfold addFile
  split
  · assumption
  · simp

theorem mem_addFile_of_mem {l : List String} {g : String} (h : g ∈ l)
    (f : String) : g ∈ addFile l f := by
  unfold addFile
  split
  · exact h
  · simp [h]

theorem addFile_of_mem {l : List String} {f : String} (h : f ∈ l) :
    addFile l f = l := if_pos h

theorem mem_foldl_addFile_of_mem {g : String} (files : List String) :
    ∀ {l : List String}, g ∈ l → g ∈ files.foldl addFile l := by
  induction files with
  | nil => intro l h; exact h
  | cons f fs ih => intro l h; exact ih (mem_addFile_of_mem h f)

theorem mem_foldl_addFile_of_mem_files {g : String} {files : List String}
    (h : g ∈ files) : ∀ (l : List String), g ∈ files.foldl addFile l := by
  induction files with
  | nil => cases h
  | cons f fs ih =>
    intro l
    rcases List.mem_cons.mp h with rfl | hg
    · exact mem_foldl_addFile_of_mem fs (mem_addFile_self l g)
    · exact ih hg (addFile l f)

theorem foldl_addFile_of_all_mem {files : List String} :
    ∀ {l : List String}, (∀ f ∈ files, f ∈ l) → files.foldl addFile l = l := by
  induction files with
  | nil => intro l _; rfl
  | cons f fs ih =>
    intro l h
    simp only [List.foldl_cons, addFile_of_mem (h f (List.mem_cons_self f fs))]
    exact ih (fun g hg => h g (List.mem_cons_of_mem f hg))

theorem foldl_addFile_head (f : String) (fs l : List String) :
    (f :: fs).foldl addFile (addFile l f) = (f :: fs).foldl addFile l := by
  simp only [List.foldl_cons, addFile_of_mem (mem_addFile_self l f)]

theorem register_knownPair (st : GraphState) (f : String) :
    knownPair (register st f) = internPair (knownPair st) f := by
  unfold register internPair knownPair dictMem
  by_cases h : (dictGet st.known_files_to_index f).isSome = true
  · simp [h]
  · simp [h]

theorem initNode_knownPair (st : GraphState) (fidx : Nat) :
    knownPair (initNode st fidx) = knownPair st := by
  unfold initNode
  split
  · rfl
  · rfl

theorem applyG_knownPair {fidx : Nat} {index : List (Nat × Nat)}
    {acc : GraphState × List (Nat × Nat)} {g : String}
    {out : GraphState × List (Nat × Nat)}
    (h : applyG fidx index acc g = some out) :
    knownPair out.1 = internPair (knownPair acc.1) g := by
  unfold applyG at h
  simp only at h
  split at h
  · split at h
    · exact absurd h (by simp)
    · cases h
      exact register_knownPair acc.1 g
  · cases h
    exact register_knownPair acc.1 g

theorem foldlM_applyG_knownPair {fidx : Nat} {index : List (Nat × Nat)}
    (files : List String) :
    ∀ (acc out : GraphState × List (Nat × Nat)),
      files.foldlM (applyG fidx index) acc = some out →
      knownPair out.1 = files.foldl internPair (knownPair acc.1) := by
  induction files with
  | nil =>
    intro acc out h
    cases h
    rfl
  | cons g gs ih =>
    intro acc out h
    rw [List.foldlM_cons] at h
    cases hmid : applyG fidx index acc g with
    | none => rw [hmid] at h; exact absurd h (by simp)
    | some mid =>
      rw [hmid] at h
      replace h : gs.foldlM (applyG fidx index) mid = some out := h
      rw [List.foldl_cons, ← applyG_knownPair hmid]
      exact ih mid out h

theorem processF_knownPair {files : List String} {st : GraphState} {f : String}
    {out : GraphState} (h : processF files st f = some out) :
    knownPair out = files.foldl internPair (internPair (knownPair st) f) := by
  unfold processF at h
  simp only at h
  rcases Option.map_eq_some'.mp h with ⟨p, hp, hfst⟩
  subst hfst
  have hk := foldlM_applyG_knownPair files _ p hp
  rw [hk]
  congr 1
  rw [show (initNode (register st f) (indexOf (register st f) f), _).1
        = initNode (register st f) (indexOf (register st f) f) from rfl]
  rw [initNode_knownPair, register_knownPair]

theorem foldlM_processF_preserved {files : List String} (l : List String) :
    ∀ (st out : GraphState),
      (∀ f ∈ l, f ∈ files) →
      (∀ f ∈ files, f ∈ st.known_files) →
      st.known_files_to_index = enumIndex st.known_files →
      l.foldlM (fun s f => processF files s f) st = some out →
      out.known_files = st.known_files ∧
      out.known_files_to_index = st.known_files_to_index := by
  induction l with
  | nil =>
    intro st out _ _ _ h
    cases h
    exact ⟨rfl, rfl⟩
  | cons f' l' ih =>
    intro st out hsub hall hinv h
    rw [List.foldlM_cons] at h
    cases hmid : processF files st f' with
    | none => rw [hmid] at h; exact absurd h (by simp)
    | some mid =>
      rw [hmid] at h
      replace h : l'.foldlM (fun s f => processF files s f) mid = some out := h
      have hkp := processF_knownPair hmid
      have hpair : knownPair st = (enumIndex st.known_files, st.known_files) := by
        unfold knownPair
        rw [hinv]
      rw [hpair, internPair_enumIndex,
        addFile_of_mem (hall f' (hsub f' (List.mem_cons_self f' l'))),
        foldl_internPair_enumIndex,
        foldl_addFile_of_all_mem hall] at hkp
      have hmidfiles : mid.known_files = st.known_files :=
        congrArg Prod.snd hkp
      have hmididx : mid.known_files_to_index = enumIndex st.known_files :=
        congrArg Prod.fst hkp
      have := ih mid out (fun g hg => hsub g (List.mem_cons_of_mem f' hg))
        (fun g hg => hmidfiles ▸ hall g hg)
        (by rw [hmididx, hmidfiles]) h
      exact ⟨this.1.trans hmidfiles, this.2.trans (hmididx.trans hinv.symm)⟩

theorem issueStep_known {files : List String} {st out : GraphState}
    (hinv : st.known_files_to_index = enumIndex st.known_files)
    (h : issueStep (some st) files = some out) :
    out.known_files =
      (if files.length > 300 then st.known_files
       else files.foldl addFile st.known_files) ∧
    out.known_files_to_index = enumIndex out.known_files := by
  unfold issueStep at h
  simp only [Option.some_bind] at h
  split at h
  · cases h
    rw [if_pos (by assumption)]
    exact ⟨rfl, hinv⟩
  · rw [if_neg (by assumption)]
    cases files with
    | nil =>
      cases h
      exact ⟨rfl, hinv⟩
    | cons f fs =>
      rw [List.foldlM_cons] at h
      cases hmid : processF (f :: fs) st f with
      | none => rw [hmid] at h; exact absurd h (by simp)
      | some mid =>
        rw [hmid] at h
        replace h : fs.foldlM (fun s g => processF (f :: fs) s g) mid = some out := h
        have hkp := processF_knownPair hmid
        have hpair : knownPair st = (enumIndex st.known_files, st.known_files) := by
          unfold knownPair
          rw [hinv]
        rw [hpair, internPair_enumIndex, foldl_internPair_enumIndex] at hkp
        rw [foldl_addFile_head] at hkp
        have hmidfiles : mid.known_files = (f :: fs).foldl addFile st.known_files :=
          congrArg Prod.snd hkp
        have hmididx : mid.known_files_to_index =
            enumIndex ((f :: fs).foldl addFile st.known_files) :=
          congrArg Prod.fst hkp
        have hrest := foldlM_processF_preserved fs mid out
          (fun g hg => List.mem_cons_of_mem f hg)
          (fun g hg => hmidfiles ▸ mem_foldl_addFile_of_mem_files hg st.known_files)
          (by rw [hmididx, hmidfiles]) h
        refine ⟨hrest.1.trans hmidfiles, ?_⟩
        rw [hrest.2, hmididx, hrest.1.trans hmidfiles]

theorem foldl_issueStep_none (values : List (List String)) :
    values.foldl issueStep none = none := by
  induction values with
  | nil => rfl
  | cons fs rest ih => simpa [issueStep] using ih

theorem buildGraph_known_aux (values : List (List String)) :
    ∀ (st out : GraphState),
      st.known_files_to_index = enumIndex st.known_files →
      values.foldl issueStep (some st) = some out →
      out.known_files =
        ((values.filter (fun fs => decide (fs.length ≤ 300))).flatten).foldl
          addFile st.known_files ∧
      out.known_files_to_index = enumIndex out.known_files := by
  induction values with
  | nil =>
    intro st out hinv h
    cases h
    exact ⟨rfl, hinv⟩
  | cons fs rest ih =>
    intro st out hinv h
    rw [List.foldl_cons] at h
    cases hmid : issueStep (some st) fs with
    | none => rw [hmid, foldl_issueStep_none] at h; cases h
    | some mid =>
      rw [hmid] at h
      have hstep := issueStep_known hinv hmid
      by_cases hlen : fs.length > 300
      · rw [if_pos hlen] at hstep
        have := ih mid out (hstep.2.trans (congrArg enumIndex rfl)) h
        rw [List.filter_cons, if_neg (by simpa using hlen)]
        exact ⟨this.1.trans (by rw [hstep.1]), this.2⟩
      · rw [if_neg hlen] at hstep
        have := ih mid out hstep.2 h
        rw [List.filter_cons, if_pos (by simpa using Nat.not_lt.mp hlen)]
        refine ⟨this.1.trans ?_, this.2⟩
        rw [hstep.1, List.flatten_cons, List.foldl_append]

/-- Claim C9: graph construction is deterministic — the embedding is a pure
function, so identical input gives identical output definitionally — and the
interning invariant holds: whenever the accumulation phase completes,
`known_files` is exactly the sequence of distinct filenames of retained
issues in first-seen order, and `known_files_to_index` assigns each filename
its dense position in that sequence. -/
theorem C9_first_seen_interning (aggregated : List (String × List String))
    (st : GraphState) (h : buildGraph aggregated = some st) :
    st.known_files = firstSeenFiles aggregated ∧
    st.known_files_to_index = enumIndex (firstSeenFiles aggregated) := by
  unfold buildGraph at h
  have := buildGraph_known_aux (aggregated.map Prod.snd) initGraphState st rfl h
  unfold firstSeenFiles retainedFileSets
  exact ⟨this.1, this.2.trans (congrArg enumIndex this.1)⟩

/-- Witness for C9 at the one-issue, one-file input. -/
theorem C9_first_seen_interning_witness :
    (⟨[(0, [0])], [(0, [1])], [("A", 0)], ["A"]⟩ : GraphState).known_files
        = firstSeenFiles [("I", ["A"])] ∧
    (⟨[(0, [0])], [(0, [1])], [("A", 0)], ["A"]⟩ : GraphState).known_files_to_index
        = enumIndex (firstSeenFiles [("I", ["A"])]) := by
  exact C9_first_seen_interning [("I", ["A"])]
    ⟨[(0, [0])], [(0, [1])], [("A", 0)], ["A"]⟩ rfl

theorem empty_string_le (s : String) : "" ≤ s := by
  by_contra h
  rw [not_le, String.lt_iff_toList_lt] at h
  simp only [String.toList_empty] at h
  generalize s.toList = l at h
  cases h

theorem charListLt_iff : ∀ x y : List Char, charListLt x y = true ↔ x < y
  | [], [] => by
    constructor
    · intro h; cases h
    · intro h; cases h
  | [], b :: bs => by
    constructor
    · intro _; exact List.Lex.nil
    · intro _; rfl
  | a :: as, [] => by
    constructor
    · intro h; cases h
    · intro h; cases h
  | a :: as, b :: bs => by
    unfold charListLt
    by_cases hab : a < b
    · rw [if_pos hab]
      constructor
      · intro _; exact List.Lex.rel hab
      · intro _; rfl
    · rw [if_neg hab]
      by_cases hba : b < a
      · rw [if_pos hba]
        constructor
        · intro h; cases h
        · intro h
          cases h with
          | cons h3 => exact absurd hba (lt_irrefl _)
          | rel h' => exact absurd h' hab
      · rw [if_neg hba]
        have heq : a = b := le_antisymm (not_lt.mp hba) (not_lt.mp hab)
        subst heq
        rw [charListLt_iff as bs]
        constructor
        · intro h; exact List.Lex.cons h
        · intro h
          cases h with
          | cons h3 => exact h3
          | rel h' => exact absurd h' (lt_irrefl _)

theorem strLtB_iff (a b : String) : strLtB a b = true ↔ a < b := by
  rw [String.lt_iff_toList_lt]
  exact charListLt_iff a.toList b.toList

theorem strLt_true_iff (a b : String) : strLt a b = true ↔ a < b :=
  strLtB_iff a b

theorem strLt_asymm (a b : String) (h : strLt a b = true) : strLt b a = false := by
  rw [strLt_true_iff] at h
  rw [← Bool.not_eq_true, strLt_true_iff]
  exact lt_asymm h

theorem strLt_co (a b c : String) (h : strLt a c = true) :
    strLt a b = true ∨ strLt b c = true := by
  rw [strLt_true_iff] at h
  rw [strLt_true_iff, strLt_true_iff]
  rcases lt_or_le a b with h1 | h1
  · exact Or.inl h1
  · exact Or.inr (lt_of_le_of_lt h1 h)

theorem pairLtStrInt_true_iff (a b : String × Int) :
    pairLtStrInt a b = true ↔ (a.1 < b.1 ∨ (a.1 = b.1 ∧ a.2 < b.2)) := by
  unfold pairLtStrInt
  rcases lt_trichotomy a.1 b.1 with h | h | h
  · rw [if_pos ((strLtB_iff _ _).mpr h)]
    simp [h]
  · have h1 : ¬ strLtB a.1 b.1 = true := by rw [strLtB_iff, h]; exact lt_irrefl _
    have h2 : ¬ strLtB b.1 a.1 = true := by rw [strLtB_iff, h]; exact lt_irrefl _
    rw [if_neg h1, if_neg h2]
    simp [h, lt_irrefl]
  · have h1 : ¬ strLtB a.1 b.1 = true := by rw [strLtB_iff]; exact lt_asymm h
    rw [if_neg h1, if_pos ((strLtB_iff _ _).mpr h)]
    constructor
    · intro hbad; cases hbad
    · rintro (h' | ⟨he, _⟩)
      · exact absurd h' (lt_asymm h)
      · exact absurd he (ne_of_gt h)

theorem pairLtStrInt_asymm (a b : String × Int) (h : pairLtStrInt a b = true) :
    pairLtStrInt b a = false := by
  rw [pairLtStrInt_true_iff] at h
  rw [← Bool.not_eq_true, pairLtStrInt_true_iff]
  rintro (h' | ⟨he', h2'⟩)
  · rcases h with h | ⟨he, _⟩
    · exact lt_asymm h h'
    · exact absurd (he ▸ h') (lt_irrefl _)
  · rcases h with h | ⟨he, h2⟩
    · exact absurd (he' ▸ h) (lt_irrefl _)
    · exact lt_asymm h2 h2'

theorem pairLtStrInt_co (a b c : String × Int) (h : pairLtStrInt a c = true) :
    pairLtStrInt a b = true ∨ pairLtStrInt b c = true := by
  rw [pairLtStrInt_true_iff] at h
  rw [pairLtStrInt_true_iff, pairLtStrInt_true_iff]
  rcases h with h | ⟨he, h2⟩
  · rcases lt_or_le a.1 b.1 with h1 | h1
    · exact Or.inl (Or.inl h1)
    · exact Or.inr (Or.inl (lt_of_le_of_lt h1 h))
  · rcases lt_trichotomy a.1 b.1 with h1 | h1 | h1
    · exact Or.inl (Or.inl h1)
    · rcases lt_or_le a.2 b.2 with h3 | h3
      · exact Or.inl (Or.inr ⟨h1, h3⟩)
      · exact Or.inr (Or.inr ⟨h1 ▸ he.symm ▸ rfl, lt_of_le_of_lt h3 h2⟩)
    · exact Or.inr (Or.inl (he ▸ h1))

theorem recordsOf_append (l : List ChangeRecord) (c : ChangeRecord)
    (issue : String) :
    recordsOf (l ++ [c]) issue =
      recordsOf l issue ++ (if c.issue_id = issue then [c] else []) := by
  unfold recordsOf
  rw [List.filter_append]
  congr 1
  by_cases h : c.issue_id = issue <;> simp [h]

theorem recordsOf_eq_nil {l : List ChangeRecord} {issue : String}
    (h : issue ∉ l.map ChangeRecord.issue_id) : recordsOf l issue = [] := by
  unfold recordsOf
  rw [List.filter_eq_nil_iff]
  intro c hc
  simp only [beq_iff_eq]
  intro he
  exact h (he ▸ List.mem_map_of_mem ChangeRecord.issue_id hc)

theorem latestDate_append_eq (l : List ChangeRecord) (c : ChangeRecord)
    (issue : String) (h : c.issue_id = issue) :
    latestDate (l ++ [c]) issue =
      (if strLtB (latestDate l issue) c.isodate then c.isodate
       else latestDate l issue) := by
  unfold latestDate
  rw [recordsOf_append, if_pos h, List.foldl_append]
  rfl

theorem latestDate_append_ne (l : List ChangeRecord) (c : ChangeRecord)
    (issue : String) (h : ¬ c.issue_id = issue) :
    latestDate (l ++ [c]) issue = latestDate l issue := by
  unfold latestDate
  rw [recordsOf_append, if_neg h, List.append_nil]

theorem latestDate_of_not_mem {l : List ChangeRecord} {issue : String}
    (h : issue ∉ l.map ChangeRecord.issue_id) : latestDate l issue = "" := by
  unfold latestDate
  rw [recordsOf_eq_nil h]
  rfl

theorem updLatest_get_ne (lat : List (String × String)) (issue date k : String)
    (h : k ≠ issue) : dictGet (updLatest lat issue date) k = dictGet lat k := by
  unfold updLatest
  split
  · exact dictGet_dictSet_ne lat issue k date h
  · rfl

theorem latFold_append (l : List ChangeRecord) (c : ChangeRecord) :
    latFold (l ++ [c]) = updLatest (latFold l) c.issue_id c.isodate := by
  unfold latFold
  rw [List.foldl_append]
  rfl

theorem latFold_get (changes : List ChangeRecord) (issue : String) :
    dictGet (latFold changes) issue =
      (if issue ∈ changes.map ChangeRecord.issue_id
       then some (latestDate changes issue) else none) := by
  induction changes using List.reverseRecOn with
  | nil => simp [latFold, dictGet]
  | append_singleton l c ih =>
    rw [latFold_append]
    by_cases hc : issue = c.issue_id
    · subst hc
      have hmem : c.issue_id ∈ (l ++ [c]).map ChangeRecord.issue_id := by simp
      rw [if_pos hmem]
      unfold updLatest
      by_cases hl : c.issue_id ∈ l.map ChangeRecord.issue_id
      · have hget : dictGet (latFold l) c.issue_id = some (latestDate l c.issue_id) := by
          rw [ih, if_pos hl]
        rw [latestDate_append_eq l c c.issue_id rfl]
        by_cases hd : strLtB (latestDate l c.issue_id) c.isodate = true
        · rw [if_pos (Or.inr (by rw [hget]; exact hd)), if_pos hd,
            dictGet_dictSet_self]
        · rw [if_neg ?hcond, if_neg hd, hget]
          case hcond =>
            rintro (hm | hlt)
            · rw [dictMem, hget] at hm
              cases hm
            · rw [hget] at hlt
              exact hd hlt
      · have hget : dictGet (latFold l) c.issue_id = none := by
          rw [ih, if_neg hl]
        rw [if_pos (Or.inl (by rw [dictMem, hget]; rfl)), dictGet_dictSet_self]
        rw [latestDate_append_eq l c c.issue_id rfl, latestDate_of_not_mem hl]
        by_cases he : c.isodate = ""
        · simp [he, strLtB, charListLt]
        · rw [if_pos ((strLtB_iff _ _).mpr
            (lt_of_le_of_ne (empty_string_le c.isodate) (Ne.symm he)))]
    · have hne : issue ∈ (l ++ [c]).map ChangeRecord.issue_id ↔
          issue ∈ l.map ChangeRecord.issue_id := by
        simp [hc]
      rw [updLatest_get_ne _ _ _ _ hc, ih]
      by_cases hl : issue ∈ l.map ChangeRecord.issue_id
      · rw [if_pos hl, if_pos (hne.mpr hl),
          latestDate_append_ne l c issue (fun e => hc e.symm)]
      · rw [if_neg hl, if_neg (fun hm => hl (hne.mp hm))]

theorem foldl_max_ge_init (l : List ChangeRecord) :
    ∀ a : String,
      a ≤ l.foldl (fun acc c => if strLtB acc c.isodate then c.isodate else acc) a := by
  induction l with
  | nil => intro a; exact le_refl a
  | cons c cs ih =>
    intro a
    rw [List.foldl_cons]
    refine le_trans ?_ (ih _)
    by_cases h : strLtB a c.isodate = true
    · rw [if_pos h]; exact le_of_lt ((strLtB_iff _ _).mp h)
    · rw [if_neg h]

theorem foldl_max_ge_mem (l : List ChangeRecord) :
    ∀ (a : String) (c : ChangeRecord), c ∈ l →
      c.isodate ≤
        l.foldl (fun acc c => if strLtB acc c.isodate then c.isodate else acc) a := by
  induction l with
  | nil => intro a c hc; cases hc
  | cons c₀ cs ih =>
    intro a c hc
    rw [List.foldl_cons]
    rcases List.mem_cons.mp hc with rfl | hc
    · refine le_trans ?_ (foldl_max_ge_init cs _)
      by_cases h : strLtB a c.isodate = true
      · rw [if_pos h]
      · rw [if_neg h]
        exact not_lt.mp (fun hlt => h ((strLtB_iff a c.isodate).mpr hlt))
    · exact ih _ c hc

theorem foldl_max_mem_or (l : List ChangeRecord) :
    ∀ a : String,
      l.foldl (fun acc c => if strLtB acc c.isodate then c.isodate else acc) a = a ∨
      (l.foldl (fun acc c => if strLtB acc c.isodate then c.isodate else acc) a)
        ∈ l.map ChangeRecord.isodate := by
  induction l with
  | nil => intro a; exact Or.inl rfl
  | cons c cs ih =>
    intro a
    rw [List.foldl_cons]
    by_cases h : strLtB a c.isodate = true
    · rw [if_pos h]
      rcases ih c.isodate with h1 | h1
      · rw [List.map_cons, h1]
        exact Or.inr (List.mem_cons_self _ _)
      · rw [List.map_cons]
        exact Or.inr (List.mem_cons_of_mem _ h1)
    · rw [if_neg h]
      rcases ih a with h1 | h1
      · exact Or.inl h1
      · rw [List.map_cons]
        exact Or.inr (List.mem_cons_of_mem _ h1)

theorem latestDate_isMax (changes : List ChangeRecord) (issue : String)
    (h : issue ∈ changes.map ChangeRecord.issue_id) :
    latestDate changes issue ∈ (recordsOf changes issue).map ChangeRecord.isodate ∧
    ∀ d ∈ (recordsOf changes issue).map ChangeRecord.isodate,
      d ≤ latestDate changes issue := by
  have hne : recordsOf changes issue ≠ [] := by
    rcases List.mem_map.mp h with ⟨c, hc, he⟩
    intro hnil
    have hcm : c ∈ recordsOf changes issue := by
      unfold recordsOf
      rw [List.mem_filter]
      exact ⟨hc, by simp [he]⟩
    rw [hnil] at hcm
    cases hcm
  constructor
  · rcases foldl_max_mem_or (recordsOf changes issue) "" with h1 | h1
    · unfold latestDate
      rw [h1]
      rcases List.exists_mem_of_ne_nil (recordsOf changes issue) hne with ⟨c, hc⟩
      have hle : c.isodate ≤ "" := by
        have hub := foldl_max_ge_mem (recordsOf changes issue) "" c hc
        rw [h1] at hub
        exact hub
      rw [← le_antisymm hle (empty_string_le _)]
      exact List.mem_map_of_mem ChangeRecord.isodate hc
    · exact h1
  · intro d hd
    rcases List.mem_map.mp hd with ⟨c, hc, he⟩
    subst he
    exact foldl_max_ge_mem _ "" c hc

theorem foldl_sumStep_proj (changes : List ChangeRecord) :
    ∀ init : List (String × String) × List (String × Int),
      changes.foldl sumStep init =
        (changes.foldl (fun lat c => updLatest lat c.issue_id c.isodate) init.1,
         changes.foldl sumMapStep init.2) := by
  induction changes with
  | nil => intro init; rfl
  | cons c cs ih =>
    intro init
    rw [List.foldl_cons, List.foldl_cons, List.foldl_cons]
    exact ih (sumStep init c)

theorem sumMapStep_eq (m : List (String × Int)) (c : ChangeRecord) :
    sumMapStep m c =
      dictSet (if dictMem m c.issue_id = true then m else dictSet m c.issue_id 0)
        c.issue_id
        ((dictGet (if dictMem m c.issue_id = true then m
                   else dictSet m c.issue_id 0) c.issue_id).getD 0
          + c.sizes.foldl (· + ·) 0) := rfl

theorem sumMapStep_get_ne (m : List (String × Int)) (c : ChangeRecord)
    (k : String) (h : k ≠ c.issue_id) :
    dictGet (sumMapStep m c) k = dictGet m k := by
  rw [sumMapStep_eq]
  by_cases hm : dictMem m c.issue_id = true
  · rw [if_pos hm, dictGet_dictSet_ne _ _ _ _ h]
  · rw [if_neg hm, dictGet_dictSet_ne _ _ _ _ h,
      dictGet_dictSet_ne _ _ _ _ h]

theorem issueSum_append_eq (l : List ChangeRecord) (c : ChangeRecord)
    (issue : String) (h : c.issue_id = issue) :
    issueSum (l ++ [c]) issue = issueSum l issue + c.sizes.foldl (· + ·) 0 := by
  unfold issueSum
  rw [recordsOf_append, if_pos h, List.map_append, List.foldl_append]
  rfl

theorem issueSum_append_ne (l : List ChangeRecord) (c : ChangeRecord)
    (issue : String) (h : ¬ c.issue_id = issue) :
    issueSum (l ++ [c]) issue = issueSum l issue := by
  unfold issueSum
  rw [recordsOf_append, if_neg h, List.append_nil]

theorem issueSum_of_not_mem {l : List ChangeRecord} {issue : String}
    (h : issue ∉ l.map ChangeRecord.issue_id) : issueSum l issue = 0 := by
  unfold issueSum
  rw [recordsOf_eq_nil h]
  rfl

theorem sumFold_get (changes : List ChangeRecord) (issue : String) :
    dictGet (changes.foldl sumMapStep []) issue =
      (if issue ∈ changes.map ChangeRecord.issue_id
       then some (issueSum changes issue) else none) := by
  induction changes using List.reverseRecOn with
  | nil => simp [dictGet]
  | append_singleton l c ih =>
    rw [List.foldl_append]
    by_cases hc : issue = c.issue_id
    · subst hc
      have hmem : c.issue_id ∈ (l ++ [c]).map ChangeRecord.issue_id := by simp
      rw [if_pos hmem, List.foldl_cons, List.foldl_nil, sumMapStep_eq]
      by_cases hl : c.issue_id ∈ l.map ChangeRecord.issue_id
      · have hget : dictGet (l.foldl sumMapStep []) c.issue_id
            = some (issueSum l c.issue_id) := by rw [ih, if_pos hl]
        have hmm : dictMem (l.foldl sumMapStep []) c.issue_id = true := by
          rw [dictMem, hget]
          rfl
        rw [if_pos hmm, hget, dictGet_dictSet_self]
        simp only [Option.getD_some]
        rw [issueSum_append_eq l c c.issue_id rfl]
      · have hget : dictGet (l.foldl sumMapStep []) c.issue_id = none := by
          rw [ih, if_neg hl]
        have hmm : ¬ dictMem (l.foldl sumMapStep []) c.issue_id = true := by
          rw [dictMem, hget]
          simp
        rw [if_neg hmm]
        simp only [dictGet_dictSet_self, Option.getD_some]
        rw [issueSum_append_eq l c c.issue_id rfl, issueSum_of_not_mem hl, zero_add]
    · have hne : issue ∈ (l ++ [c]).map ChangeRecord.issue_id ↔
          issue ∈ l.map ChangeRecord.issue_id := by
        simp [hc]
      rw [List.foldl_cons, List.foldl_nil, sumMapStep_get_ne _ _ _ hc, ih]
      by_cases hl : issue ∈ l.map ChangeRecord.issue_id
      · rw [if_pos hl, if_pos (hne.mpr hl),
          issueSum_append_ne l c issue (fun e => hc e.symm)]
      · rw [if_neg hl, if_neg (fun hm => hl (hne.mp hm))]

theorem keysNodup_sumMapStep (m : List (String × Int)) (c : ChangeRecord)
    (h : keysNodup m) : keysNodup (sumMapStep m c) := by
  rw [sumMapStep_eq]
  apply keysNodup_dictSet
  by_cases hm : dictMem m c.issue_id = true
  · rw [if_pos hm]; exact h
  · rw [if_neg hm]; exact keysNodup_dictSet _ _ _ h

theorem keysNodup_sumFold (changes : List ChangeRecord) :
    ∀ m : List (String × Int), keysNodup m →
      keysNodup (changes.foldl sumMapStep m) := by
  induction changes with
  | nil => intro m h; exact h
  | cons c cs ih =>
    intro m h
    rw [List.foldl_cons]
    exact ih _ (keysNodup_sumMapStep m c h)

theorem dictGet_none_of_no_key {κ ν : Type} [DecidableEq κ]
    {d : List (κ × ν)} {k : κ} (h : ∀ q ∈ d, q.1 ≠ k) : dictGet d k = none := by
  induction d with
  | nil => rfl
  | cons p rest ih =>
    obtain ⟨k₀, v₀⟩ := p
    have hp := h (k₀, v₀) (List.mem_cons_self _ _)
    unfold dictGet
    rw [if_neg hp]
    exact ih (fun q hq => h q (List.mem_cons_of_mem _ hq))

theorem foldl_dictSet_map {ν : Type} (K : String → String) :
    ∀ (entries acc : List (String × ν)),
      (∀ kv ∈ entries, ∀ q ∈ acc, q.1 ≠ K kv.1) →
      entries.Pairwise (fun a b => K a.1 ≠ K b.1) →
      entries.foldl (fun w kv => dictSet w (K kv.1) kv.2) acc
        = acc ++ entries.map (fun kv => (K kv.1, kv.2)) := by
  intro entries
  induction entries with
  | nil => intro acc _ _; simp
  | cons kv rest ih =>
    intro acc hfresh hpair
    rw [List.foldl_cons]
    have hfr : dictGet acc (K kv.1) = none :=
      dictGet_none_of_no_key (fun q hq => hfresh kv (List.mem_cons_self kv rest) q hq)
    rw [dictSet_fresh _ _ _ hfr]
    rcases List.pairwise_cons.mp hpair with ⟨hhead, htail⟩
    rw [ih (acc ++ [(K kv.1, kv.2)]) ?fresh htail]
    · simp
    case fresh =>
      intro kv' hkv' q hq
      rcases List.mem_append.mp hq with hq | hq
      · exact hfresh kv' (List.mem_cons_of_mem kv hkv') q hq
      · rcases List.mem_singleton.mp hq with rfl
        exact hhead kv' hkv'

theorem dictGet_map_key {ν : Type} (K : String → String) (issue : String) :
    ∀ entries : List (String × ν),
      (∀ kv ∈ entries, K kv.1 = K issue → kv.1 = issue) →
      dictGet (entries.map (fun kv => (K kv.1, kv.2))) (K issue)
        = dictGet entries issue := by
  intro entries
  induction entries with
  | nil => intro _; rfl
  | cons kv rest ih =>
    intro hinj
    obtain ⟨k₀, v₀⟩ := kv
    simp only [List.map_cons]
    unfold dictGet
    by_cases h : K k₀ = K issue
    · rw [if_pos h, if_pos (hinj (k₀, v₀) (List.mem_cons_self _ _) h)]
    · rw [if_neg h, if_neg (fun e => h (by rw [e]))]
      exact ih (fun q hq he => hinj q (List.mem_cons_of_mem _ hq) he)

theorem keysNodup_of_perm {κ ν : Type} {l l' : List (κ × ν)}
    (hp : l.Perm l') (h : keysNodup l) : keysNodup l' := by
  unfold keysNodup at *
  exact (hp.map Prod.fst).nodup_iff.mp h

theorem dictGet_perm {κ ν : Type} [DecidableEq κ] {l l' : List (κ × ν)}
    (hp : l.Perm l') (h : keysNodup l) {k : κ} {v : ν}
    (hg : dictGet l k = some v) : dictGet l' k = some v :=
  dictGet_of_mem_keysNodup (keysNodup_of_perm hp h) (hp.mem_iff.mp (mem_of_dictGet hg))

theorem keysNodup_foldl_dictSet {κ ν μ : Type} [DecidableEq κ]
    (F : μ → κ) (G : μ → ν) :
    ∀ (entries : List μ) (acc : List (κ × ν)), keysNodup acc →
      keysNodup (entries.foldl (fun w kv => dictSet w (F kv) (G kv)) acc) := by
  intro entries
  induction entries with
  | nil => intro acc h; exact h
  | cons kv rest ih =>
    intro acc h
    rw [List.foldl_cons]
    exact ih _ (keysNodup_dictSet _ _ _ h)

theorem keysNodup_withDate {ν : Type} (latest : List (String × String))
    (entries : List (String × ν)) : keysNodup (withDate latest entries) :=
  keysNodup_foldl_dictSet
    (fun kv : String × ν => (dictGet latest kv.1).getD "" ++ ":" ++ kv.1)
    (fun kv => kv.2) entries [] (by unfold keysNodup; simp)

theorem withDate_eq_map {ν : Type} (latest : List (String × String))
    (entries : List (String × ν))
    (hpair : entries.Pairwise (fun a b =>
      (dictGet latest a.1).getD "" ++ ":" ++ a.1 ≠
      (dictGet latest b.1).getD "" ++ ":" ++ b.1)) :
    withDate latest entries =
      entries.map (fun kv => ((dictGet latest kv.1).getD "" ++ ":" ++ kv.1, kv.2)) := by
  have h := foldl_dictSet_map
    (fun i => (dictGet latest i).getD "" ++ ":" ++ i) entries []
    (by intro kv _ q hq; cases hq) hpair
  simpa [withDate] using h

/-- Claim C8: `sum_filesizes_per_issue` maps each issue (keyed by the
composite string `latest_date ++ ":" ++ issue_id`) to the sum of every size
value across every contributing record, with no deduplication by filename;
its output is sorted strictly ascending by the composite key; and on the
Scenario C records it returns exactly the two doctest entries.  The per-issue
mapping statement assumes the composite keys of distinct issues are distinct
(true whenever dates contain no colon, as ISO dates do); without it a key
collision would overwrite one issue's entry. -/
theorem C8_sum_per_issue :
    (∀ (changes : List ChangeRecord) (issue : String),
      issue ∈ changes.map ChangeRecord.issue_id →
      (∀ i1 ∈ changes.map ChangeRecord.issue_id,
        ∀ i2 ∈ changes.map ChangeRecord.issue_id,
        compositeKey changes i1 = compositeKey changes i2 → i1 = i2) →
      dictGet (sum_filesizes_per_issue changes) (compositeKey changes issue)
        = some (issueSum changes issue)) ∧
    (∀ changes : List ChangeRecord,
      (sum_filesizes_per_issue changes).Pairwise (fun a b => a.1 < b.1)) ∧
    sum_filesizes_per_issue scenarioC =
      [("2018-03-11:FOO-1112", 10), ("2018-03-12:FOO-1111", 23)] := by
  refine ⟨?general, ?sorted, by rfl⟩
  case general =>
    intro changes issue hmem hinj
    have hKeq : ∀ i ∈ changes.map ChangeRecord.issue_id,
        (dictGet (latFold changes) i).getD "" ++ ":" ++ i = compositeKey changes i := by
      intro i hi
      rw [latFold_get, if_pos hi]
      rfl
    have hrepr : sum_filesizes_per_issue changes
        = sortLt pairLtStrInt
            (withDate (latFold changes) (changes.foldl sumMapStep [])) := by
      unfold sum_filesizes_per_issue
      rw [foldl_sumStep_proj]
      rfl
    have hkn : keysNodup (changes.foldl sumMapStep []) :=
      keysNodup_sumFold changes [] (by unfold keysNodup; simp)
    have hdom : ∀ kv ∈ changes.foldl sumMapStep [],
        kv.1 ∈ changes.map ChangeRecord.issue_id := by
      intro kv hkv
      by_contra hno
      have hg := dictGet_of_mem_keysNodup hkn (show (kv.1, kv.2) ∈ _ from hkv)
      rw [sumFold_get, if_neg hno] at hg
      cases hg
    have hpair : (changes.foldl sumMapStep []).Pairwise (fun a b =>
        (dictGet (latFold changes) a.1).getD "" ++ ":" ++ a.1 ≠
        (dictGet (latFold changes) b.1).getD "" ++ ":" ++ b.1) := by
      have hne : (changes.foldl sumMapStep []).Pairwise
          (fun a b => a.1 ≠ b.1) := by
        have := hkn
        unfold keysNodup at this
        exact List.pairwise_map.mp this
      refine hne.imp_of_mem ?_
      intro a b ha hb hab he
      rw [hKeq a.1 (hdom a ha), hKeq b.1 (hdom b hb)] at he
      exact hab (hinj a.1 (hdom a ha) b.1 (hdom b hb) he)
    have hmap := withDate_eq_map (latFold changes) (changes.foldl sumMapStep []) hpair
    have hget : dictGet (withDate (latFold changes) (changes.foldl sumMapStep []))
        (compositeKey changes issue) = some (issueSum changes issue) := by
      rw [hmap, ← hKeq issue hmem]
      have hmk := dictGet_map_key
        (fun i => (dictGet (latFold changes) i).getD "" ++ ":" ++ i) issue
        (changes.foldl sumMapStep [])
        (by
          intro kv hkv he
          have h1 := hKeq kv.1 (hdom kv hkv)
          have h2 := hKeq issue hmem
          exact hinj kv.1 (hdom kv hkv) issue hmem
            (by rw [← h1, ← h2]; exact he))
      rw [hmk, sumFold_get, if_pos hmem]
    rw [hrepr]
    exact dictGet_perm (sortLt_perm pairLtStrInt _).symm
      (keysNodup_withDate _ _) hget
  case sorted =>
    intro changes
    have hrepr : sum_filesizes_per_issue changes
        = sortLt pairLtStrInt
            (withDate (latFold changes) (changes.foldl sumMapStep [])) := by
      unfold sum_filesizes_per_issue
      rw [foldl_sumStep_proj]
      rfl
    rw [hrepr]
    have hpw := sortLt_pairwise pairLtStrInt pairLtStrInt_asymm pairLtStrInt_co
      (withDate (latFold changes) (changes.foldl sumMapStep []))
    have hkn : keysNodup (sortLt pairLtStrInt
        (withDate (latFold changes) (changes.foldl sumMapStep []))) :=
      keysNodup_of_perm (sortLt_perm pairLtStrInt _).symm (keysNodup_withDate _ _)
    have hne : (sortLt pairLtStrInt
        (withDate (latFold changes) (changes.foldl sumMapStep []))).Pairwise
          (fun a b => a.1 ≠ b.1) := by
      unfold keysNodup at hkn
      exact List.pairwise_map.mp hkn
    refine (hpw.and hne).imp ?_
    intro a b hab
    rcases hab with ⟨hle, hneq⟩
    have : ¬ (b.1 < a.1 ∨ (b.1 = a.1 ∧ b.2 < a.2)) := by
      rw [← pairLtStrInt_true_iff]
      simp [hle]
    push_neg at this
    exact lt_of_le_of_ne (not_lt.mp (fun hlt => this.1 hlt)) hneq

/-- Witness for C8's per-issue clause at Scenario C and issue FOO-1111. -/
theorem C8_sum_per_issue_witness :
    dictGet (sum_filesizes_per_issue scenarioC) (compositeKey scenarioC "FOO-1111")
      = some (issueSum scenarioC "FOO-1111") := by
  exact C8_sum_per_issue.1 scenarioC "FOO-1111" (by decide) (by decide)

theorem foldl_aggStep_proj (changes : List ChangeRecord) :
    ∀ init : List (String × String) × List (String × List String),
      changes.foldl aggStep init =
        (changes.foldl (fun lat c => updLatest lat c.issue_id c.isodate) init.1,
         changes.foldl aggMapStep init.2) := by
  induction changes with
  | nil => intro init; rfl
  | cons c cs ih =>
    intro init
    rw [List.foldl_cons, List.foldl_cons, List.foldl_cons]
    exact ih (aggStep init c)

theorem aggInner_get_self (issue : String) (files : List String) :
    ∀ (m : List (String × List String)) (s : List String),
      dictGet m issue = some s →
      dictGet (files.foldl
          (fun m f => dictSet m issue (setAdd ((dictGet m issue).getD []) f)) m)
        issue = some (files.foldl setAdd s) := by
  induction files with
  | nil => intro m s h; exact h
  | cons f fs ih =>
    intro m s h
    rw [List.foldl_cons, List.foldl_cons]
    refine ih _ _ ?_
    rw [h]
    simp only [Option.getD_some]
    exact dictGet_dictSet_self _ _ _

theorem aggInner_get_ne (issue k : String) (h : k ≠ issue) (files : List String) :
    ∀ m : List (String × List String),
      dictGet (files.foldl
          (fun m f => dictSet m issue (setAdd ((dictGet m issue).getD []) f)) m)
        k = dictGet m k := by
  induction files with
  | nil => intro m; rfl
  | cons f fs ih =>
    intro m
    rw [List.foldl_cons, ih, dictGet_dictSet_ne _ _ _ _ h]

theorem aggMapStep_eq (m : List (String × List String)) (c : ChangeRecord) :
    aggMapStep m c =
      c.files.foldl
        (fun m f => dictSet m c.issue_id (setAdd ((dictGet m c.issue_id).getD []) f))
        (if dictMem m c.issue_id = true then m else dictSet m c.issue_id []) := rfl

theorem aggMapStep_get_ne (m : List (String × List String)) (c : ChangeRecord)
    (k : String) (h : k ≠ c.issue_id) :
    dictGet (aggMapStep m c) k = dictGet m k := by
  rw [aggMapStep_eq, aggInner_get_ne _ _ h]
  by_cases hm : dictMem m c.issue_id = true
  · rw [if_pos hm]
  · rw [if_neg hm, dictGet_dictSet_ne _ _ _ _ h]

theorem mem_setAdd_iff (s : List String) (g f : String) :
    f ∈ setAdd s g ↔ f ∈ s ∨ f = g := by
  unfold setAdd
  by_cases h : g ∈ s
  · rw [if_pos h]
    constructor
    · exact Or.inl
    · rintro (hf | rfl)
      · exact hf
      · exact h
  · rw [if_neg h]
    simp

theorem nodup_setAdd (s : List String) (g : String) (h : s.Nodup) :
    (setAdd s g).Nodup := by
  unfold setAdd
  by_cases hg : g ∈ s
  · rw [if_pos hg]; exact h
  · rw [if_neg hg]
    simp [List.nodup_append, h, List.disjoint_singleton, hg]

theorem mem_foldl_setAdd (files : List String) :
    ∀ (s : List String) (f : String),
      f ∈ files.foldl setAdd s ↔ f ∈ s ∨ f ∈ files := by
  induction files with
  | nil => intro s f; simp
  | cons g gs ih =>
    intro s f
    rw [List.foldl_cons, ih, mem_setAdd_iff]
    constructor
    · rintro ((hf | rfl) | hf)
      · exact Or.inl hf
      · exact Or.inr (List.mem_cons_self _ _)
      · exact Or.inr (List.mem_cons_of_mem _ hf)
    · rintro (hf | hf)
      · exact Or.inl (Or.inl hf)
      · rcases List.mem_cons.mp hf with rfl | hf
        · exact Or.inl (Or.inr rfl)
        · exact Or.inr hf

theorem nodup_foldl_setAdd (files : List String) :
    ∀ s : List String, s.Nodup → (files.foldl setAdd s).Nodup := by
  induction files with
  | nil => intro s h; exact h
  | cons g gs ih =>
    intro s h
    rw [List.foldl_cons]
    exact ih _ (nodup_setAdd s g h)

theorem issueFiles_append_eq (l : List ChangeRecord) (c : ChangeRecord)
    (issue : String) (h : c.issue_id = issue) :
    issueFiles (l ++ [c]) issue = issueFiles l issue ++ c.files := by
  unfold issueFiles
  rw [recordsOf_append, if_pos h, List.map_append, List.flatten_append]
  simp

theorem issueFiles_append_ne (l : List ChangeRecord) (c : ChangeRecord)
    (issue : String) (h : ¬ c.issue_id = issue) :
    issueFiles (l ++ [c]) issue = issueFiles l issue := by
  unfold issueFiles
  rw [recordsOf_append, if_neg h, List.append_nil]

theorem issueFiles_of_not_mem {l : List ChangeRecord} {issue : String}
    (h : issue ∉ l.map ChangeRecord.issue_id) : issueFiles l issue = [] := by
  unfold issueFiles
  rw [recordsOf_eq_nil h]
  rfl

theorem aggFold_get_none (changes : List ChangeRecord) (issue : String)
    (h : issue ∉ changes.map ChangeRecord.issue_id) :
    dictGet (changes.foldl aggMapStep []) issue = none := by
  induction changes using List.reverseRecOn with
  | nil => rfl
  | append_singleton l c ih =>
    have hne : issue ≠ c.issue_id := by
      intro he
      exact h (by simp [he])
    have hl : issue ∉ l.map ChangeRecord.issue_id := by
      intro hm
      exact h (by simp [hm])
    rw [List.foldl_append, List.foldl_cons, List.foldl_nil,
      aggMapStep_get_ne _ _ _ hne]
    exact ih hl

theorem aggFold_get_some (changes : List ChangeRecord) (issue : String)
    (h : issue ∈ changes.map ChangeRecord.issue_id) :
    ∃ s, dictGet (changes.foldl aggMapStep []) issue = some s ∧ s.Nodup ∧
      (∀ f, f ∈ s ↔ f ∈ issueFiles changes issue) := by
  induction changes using List.reverseRecOn with
  | nil => cases h
  | append_singleton l c ih =>
    rw [List.foldl_append, List.foldl_cons, List.foldl_nil]
    by_cases hc : issue = c.issue_id
    · subst hc
      rw [aggMapStep_eq]
      by_cases hl : c.issue_id ∈ l.map ChangeRecord.issue_id
      · rcases ih hl with ⟨s, hs, hnd, hmemiff⟩
        have hmm : dictMem (l.foldl aggMapStep []) c.issue_id = true := by
          rw [dictMem, hs]
          rfl
        rw [if_pos hmm]
        refine ⟨c.files.foldl setAdd s, aggInner_get_self c.issue_id c.files _ s hs,
          nodup_foldl_setAdd c.files s hnd, ?_⟩
        intro f
        rw [mem_foldl_setAdd, hmemiff f, issueFiles_append_eq l c c.issue_id rfl,
          List.mem_append]
      · have hnone := aggFold_get_none l c.issue_id hl
        have hmm : ¬ dictMem (l.foldl aggMapStep []) c.issue_id = true := by
          rw [dictMem, hnone]
          simp
        rw [if_neg hmm]
        refine ⟨c.files.foldl setAdd [],
          aggInner_get_self c.issue_id c.files _ [] (dictGet_dictSet_self _ _ _),
          nodup_foldl_setAdd c.files [] List.nodup_nil, ?_⟩
        intro f
        rw [mem_foldl_setAdd, issueFiles_append_eq l c c.issue_id rfl,
          issueFiles_of_not_mem hl]
        simp
    · have hl : issue ∈ l.map ChangeRecord.issue_id := by
        rcases List.mem_map.mp h with ⟨c', hc', he⟩
        rcases List.mem_append.mp hc' with hm | hm
        · exact he ▸ List.mem_map_of_mem ChangeRecord.issue_id hm
        · rcases List.mem_singleton.mp hm with rfl
          exact absurd he.symm hc
      rcases ih hl with ⟨s, hs, hnd, hmemiff⟩
      rw [aggMapStep_get_ne _ _ _ hc]
      refine ⟨s, hs, hnd, ?_⟩
      intro f
      rw [hmemiff f, issueFiles_append_ne l c issue (fun e => hc e.symm)]

theorem keysNodup_aggMapStep (m : List (String × List String)) (c : ChangeRecord)
    (h : keysNodup m) : keysNodup (aggMapStep m c) := by
  rw [aggMapStep_eq]
  have hbase : keysNodup (if dictMem m c.issue_id = true then m
      else dictSet m c.issue_id []) := by
    by_cases hm : dictMem m c.issue_id = true
    · rw [if_pos hm]; exact h
    · rw [if_neg hm]; exact keysNodup_dictSet _ _ _ h
  generalize (if dictMem m c.issue_id = true then m
      else dictSet m c.issue_id []) = m0 at hbase ⊢
  induction c.files generalizing m0 with
  | nil => exact hbase
  | cons f fs ih =>
    rw [List.foldl_cons]
    exact ih _ (keysNodup_dictSet _ _ _ hbase)

theorem keysNodup_aggFold (changes : List ChangeRecord) :
    ∀ m : List (String × List String), keysNodup m →
      keysNodup (changes.foldl aggMapStep m) := by
  induction changes with
  | nil => intro m h; exact h
  | cons c cs ih =>
    intro m h
    rw [List.foldl_cons]
    exact ih _ (keysNodup_aggMapStep m c h)

theorem dictGet_map_val {κ ν μ : Type} [DecidableEq κ] (F : ν → μ) (k : κ) :
    ∀ d : List (κ × ν),
      dictGet (d.map (fun kv => (kv.1, F kv.2))) k = (dictGet d k).map F := by
  intro d
  induction d with
  | nil => rfl
  | cons p rest ih =>
    obtain ⟨k₀, v₀⟩ := p
    simp only [List.map_cons]
    unfold dictGet
    by_cases h : k₀ = k
    · rw [if_pos h, if_pos h]
      rfl
    · rw [if_neg h, if_neg h]
      exact ih

theorem keysNodup_map_val {κ ν μ : Type} (F : ν → μ)
    {d : List (κ × ν)} (h : keysNodup d) :
    keysNodup (d.map (fun kv => (kv.1, F kv.2))) := by
  unfold keysNodup at *
  rw [List.map_map]
  exact h

/-- Claim C5: `aggregate_files_per_issue` maps each issue (keyed by
`latest_date ++ ":" ++ issue_id`) to exactly the union of the file sets of
its records — no duplicates, in strictly ascending lexicographic order — and
the `latest_date` component is the lexicographic maximum of the contributing
dates (it is attained and bounds every date).  The per-issue mapping clause
assumes distinct issues have distinct composite keys, as for colon-free
dates; the third conjunct is the Scenario C doctest. -/
theorem C5_aggregate_union_sorted :
    (∀ (changes : List ChangeRecord) (issue : String),
      issue ∈ changes.map ChangeRecord.issue_id →
      (∀ i1 ∈ changes.map ChangeRecord.issue_id,
        ∀ i2 ∈ changes.map ChangeRecord.issue_id,
        compositeKey changes i1 = compositeKey changes i2 → i1 = i2) →
      ∃ v, dictGet (aggregate_files_per_issue changes) (compositeKey changes issue)
          = some v ∧
        v.Pairwise (fun a b => a < b) ∧
        (∀ f, f ∈ v ↔ f ∈ issueFiles changes issue)) ∧
    (∀ (changes : List ChangeRecord) (issue : String),
      issue ∈ changes.map ChangeRecord.issue_id →
      latestDate changes issue ∈ (recordsOf changes issue).map ChangeRecord.isodate ∧
      ∀ d ∈ (recordsOf changes issue).map ChangeRecord.isodate,
        d ≤ latestDate changes issue) ∧
    aggregate_files_per_issue scenarioC =
      [("2018-03-12:FOO-1111", ["A", "B", "C"]),
       ("2018-03-11:FOO-1112", ["A", "D"])] := by
  refine ⟨?general, latestDate_isMax, by rfl⟩
  case general =>
    intro changes issue hmem hinj
    have hKeq : ∀ i ∈ changes.map ChangeRecord.issue_id,
        (dictGet (latFold changes) i).getD "" ++ ":" ++ i = compositeKey changes i := by
      intro i hi
      rw [latFold_get, if_pos hi]
      rfl
    have hrepr : aggregate_files_per_issue changes
        = withDate (latFold changes)
            ((changes.foldl aggMapStep []).map
              (fun kv => (kv.1, sortLt strLt kv.2))) := by
      unfold aggregate_files_per_issue
      rw [foldl_aggStep_proj]
      rfl
    have hknM : keysNodup (changes.foldl aggMapStep []) :=
      keysNodup_aggFold changes [] (by unfold keysNodup; simp)
    have hkn : keysNodup ((changes.foldl aggMapStep []).map
        (fun kv => (kv.1, sortLt strLt kv.2))) :=
      keysNodup_map_val _ hknM
    have hdom : ∀ kv ∈ (changes.foldl aggMapStep []).map
        (fun kv => (kv.1, sortLt strLt kv.2)),
        kv.1 ∈ changes.map ChangeRecord.issue_id := by
      intro kv hkv
      by_contra hno
      have hg := dictGet_of_mem_keysNodup hkn (show (kv.1, kv.2) ∈ _ from hkv)
      rw [dictGet_map_val, aggFold_get_none changes kv.1 hno] at hg
      cases hg
    have hpair : ((changes.foldl aggMapStep []).map
        (fun kv => (kv.1, sortLt strLt kv.2))).Pairwise (fun a b =>
        (dictGet (latFold changes) a.1).getD "" ++ ":" ++ a.1 ≠
        (dictGet (latFold changes) b.1).getD "" ++ ":" ++ b.1) := by
      have hne : ((changes.foldl aggMapStep []).map
          (fun kv => (kv.1, sortLt strLt kv.2))).Pairwise
            (fun a b => a.1 ≠ b.1) := by
        have hh := hkn
        unfold keysNodup at hh
        exact List.pairwise_map.mp hh
      refine hne.imp_of_mem ?_
      intro a b ha hb hab he
      rw [hKeq a.1 (hdom a ha), hKeq b.1 (hdom b hb)] at he
      exact hab (hinj a.1 (hdom a ha) b.1 (hdom b hb) he)
    have hmap := withDate_eq_map (latFold changes)
      ((changes.foldl aggMapStep []).map (fun kv => (kv.1, sortLt strLt kv.2)))
      hpair
    rcases aggFold_get_some changes issue hmem with ⟨s, hs, hnd, hmemiff⟩
    refine ⟨sortLt strLt s, ?_, ?_, ?_⟩
    · rw [hrepr, hmap, ← hKeq issue hmem]
      have hmk := dictGet_map_key
        (fun i => (dictGet (latFold changes) i).getD "" ++ ":" ++ i) issue
        ((changes.foldl aggMapStep []).map (fun kv => (kv.1, sortLt strLt kv.2)))
        (fun kv hkv he => hinj kv.1 (hdom kv hkv) issue hmem
          (by rw [← hKeq kv.1 (hdom kv hkv), ← hKeq issue hmem]; exact he))
      rw [hmk, dictGet_map_val, hs]
      rfl
    · have hpw := sortLt_pairwise strLt strLt_asymm strLt_co s
      have hnd' : (sortLt strLt s).Nodup :=
        (sortLt_perm strLt s).nodup_iff.mpr hnd
      have hnd'' : (sortLt strLt s).Pairwise (fun a b => a ≠ b) := hnd'
      refine (hpw.and hnd'').imp ?_
      intro a b hab
      rcases hab with ⟨hle, hne⟩
      have hnlt : ¬ b < a := fun hlt => by
        rw [← strLt_true_iff b a] at hlt
        rw [hle] at hlt
        cases hlt
      exact lt_of_le_of_ne (not_lt.mp hnlt) hne
    · intro f
      rw [mem_sortLt, hmemiff f]

/-- Witness for C5 at Scenario C and issue FOO-1111. -/
theorem C5_aggregate_union_sorted_witness :
    (∃ v, dictGet (aggregate_files_per_issue scenarioC)
        (compositeKey scenarioC "FOO-1111") = some v ∧
      v.Pairwise (fun a b => a < b) ∧
      (∀ f, f ∈ v ↔ f ∈ issueFiles scenarioC "FOO-1111")) ∧
    latestDate scenarioC "FOO-1111"
      ∈ (recordsOf scenarioC "FOO-1111").map ChangeRecord.isodate := by
  exact ⟨C5_aggregate_union_sorted.1 scenarioC "FOO-1111" (by decide) (by decide),
    (C5_aggregate_union_sorted.2.1 scenarioC "FOO-1111" (by decide)).1⟩

end GitJira
